import Mathlib

/-!
Verification of the DuckDuckGo startup-funding scraper (`datascraper.py`).

Strings are modelled as `List Char`. Python's `str.lower()` is modelled on
the ASCII range (`py_lower`), which covers every keyword and example in the
repository. Percent decoding (`urllib.parse.unquote`) is modelled byte-wise
(`unquote`): a `%XY` hex escape becomes the character with that code point,
which agrees with Python on the ASCII range exercised here.
-/

namespace DataScraper

/-- ASCII model of Python's `str.lower()` applied to one character. -/
def py_lower (c : Char) : Char :=
  if 65 ≤ c.toNat ∧ c.toNat ≤ 90 then Char.ofNat (c.toNat + 32) else c

/-- Model of Python's `str.lower()`. -/
def lower (s : List Char) : List Char :=
  s.map py_lower

/-- Model of Python's substring test `needle in hay` for strings. -/
def contains_sub (needle : List Char) : List Char → Bool
  | [] => needle.isEmpty
  | c :: t => needle.isPrefixOf (c :: t) || contains_sub needle t

/-- Value of one hexadecimal digit, as used by percent decoding. -/
def hex_val (c : Char) : Option Nat :=
  if 48 ≤ c.toNat ∧ c.toNat ≤ 57 then some (c.toNat - 48)
  else if 97 ≤ c.toNat ∧ c.toNat ≤ 102 then some (c.toNat - 87)
  else if 65 ≤ c.toNat ∧ c.toNat ≤ 70 then some (c.toNat - 55)
  else none

/-- Model of `urllib.parse.unquote`: every `%XY` escape with two hex digits
becomes the character with code `16*X + Y`; any other `%` stays literal. -/
def unquote : List Char → List Char
  | [] => []
  | '%' :: a :: b :: rest =>
    match hex_val a, hex_val b with
    | some x, some y => Char.ofNat (16 * x + y) :: unquote rest
    | _, _ => '%' :: unquote (a :: b :: rest)
  | c :: rest => c :: unquote rest

/-- Does the regular expression `u3=([^&]+)` match at the very start of `s`?
If so, return the captured group (the maximal nonempty run of non-`&`
characters after `u3=`). -/
def u3_here (s : List Char) : Option (List Char) :=
  match s with
  | 'u' :: '3' :: '=' :: rest =>
    let g := rest.takeWhile (fun c => c ≠ '&')
    if g.isEmpty then none else some g
  | _ => none

/-- Model of `re.search(r"u3=([^&]+)", s)`: the capture of the leftmost
match, scanning positions left to right. -/
def capture_u3 : List Char → Option (List Char)
  | [] => none
  | c :: rest =>
    match u3_here (c :: rest) with
    | some g => some g
    | none => capture_u3 rest

/-- The literal the code tests with `raw_url.startswith("//duckduckgo.com/y.js?")`. -/
def wrapper_head : List Char :=
  ("//duckduckgo.com/y.js?").data

/-- The URL-cleaning logic of `scrape_search_results` (lines 88-99 of
`datascraper.py`), as a function of the raw `href` value. -/
def clean_url (raw_url : List Char) : List Char :=
  if wrapper_head.isPrefixOf raw_url then
    match capture_u3 raw_url with
    | some g => unquote g
    | none => raw_url
  else if ("http").data.isPrefixOf raw_url then raw_url
  else ("https:").data ++ raw_url

/-- URLResolver as the spec words it (section 4.3): wrapper pattern with a
destination parameter gives the percent-decoded parameter; wrapper without
the parameter gives the input unchanged; an input beginning with a scheme
(`http`/`https`) is returned unchanged; anything else gets `https:`
prefixed.  Written from the spec to be compared with `clean_url`. -/
def resolve_spec (rawHref : List Char) : List Char :=
  if wrapper_head.isPrefixOf rawHref then
    match capture_u3 rawHref with
    | some dest => unquote dest
    | none => rawHref
  else if ("http").data.isPrefixOf rawHref ∨ ("https").data.isPrefixOf rawHref then rawHref
  else ("https:").data ++ rawHref

/-- The `funding_keywords` list of `scrape_search_results`. -/
def funding_keywords : List (List Char) :=
  [("funding").data, ("investment").data, ("grant").data, ("subsidy").data,
   ("venture").data, ("capital").data, ("series").data, ("round").data,
   ("investor").data, ("backed").data, ("raised").data]

/-- The classifier: `any(keyword.lower() in (title + snippet).lower() for
keyword in funding_keywords)`, as a function of the scanned text. -/
def isFundingRelated (text : List Char) : Bool :=
  funding_keywords.any (fun keyword => contains_sub (lower keyword) (lower text))

/-- A parsed HTML sub-element, as handed over by the external parser: its
stripped text (`get_text(strip=True)`) and, for link elements, the optional
`href` attribute. -/
structure Elem where
  text : List Char
  href : Option (List Char)
deriving DecidableEq

/-- One `.result` container of a parsed result page: the optional
`.result__title .result__a` element, the optional `.result__snippet`
element and the optional `.result__url` element. -/
structure Container where
  title_elem : Option Elem
  snippet_elem : Option Elem
  display_elem : Option Elem
deriving DecidableEq

/-- A result record, mirroring the `result_data` dictionary built by
`scrape_search_results`. -/
structure Record where
  query : List Char
  rank : Nat
  title : List Char
  url : List Char
  display_url : List Char
  snippet : List Char
  is_funding_related : Bool
  timestamp : List Char
deriving DecidableEq

/-- The body of the extraction loop of `scrape_search_results` for one
container, given the rank value `i + 1` the loop would assign; `none` is
the `continue` taken when there is no title element.  `now` stands for
`time.strftime("%Y-%m-%d %H:%M:%S")`. -/
def extract_record (query : List Char) (now : List Char) (rank : Nat)
    (c : Container) : Option Record :=
  match c.title_elem with
  | none => none
  | some title_elem =>
    let title := title_elem.text
    let raw_url := title_elem.href.getD []
    let url := clean_url raw_url
    let snippet := match c.snippet_elem with
      | some e => e.text
      | none => []
    let display_url := match c.display_elem with
      | some e => e.text
      | none => []
    some { query := query, rank := rank, title := title, url := url,
           display_url := display_url, snippet := snippet,
           is_funding_related := isFundingRelated (title ++ snippet),
           timestamp := now }

/-- The extraction loop of `scrape_search_results`:
`for i, result in enumerate(search_results[:max_results])` with a
`continue` for containers lacking a title element, building one record per
remaining container with `rank = i + 1`.  The fetch and parse of the page
are external; the loop is a function of the parsed containers. -/
def scrape_search_results (query : List Char) (max_results : Nat)
    (containers : List Container) (now : List Char) : List Record :=
  (containers.take max_results).enum.filterMap
    (fun ic => extract_record query now (ic.1 + 1) ic.2)

/-- The `base_queries` list of `construct_search_queries`. -/
def base_queries : List (List Char) :=
  [("startup grants funding").data,
   ("venture capital investors").data,
   ("seed funding rounds").data,
   ("startup subsidies government").data,
   ("angel investors early stage").data,
   ("series A funding").data,
   ("startup incubator programs").data]

/-- The f-string `f'"{startup_name}" funding investors'`. -/
def subject_query (startup_name : List Char) : List Char :=
  ("\"").data ++ startup_name ++ ("\" funding investors").data

/-- The `industry_queries` pair of `construct_search_queries`. -/
def industry_queries (industry : List Char) : List (List Char) :=
  [industry ++ (" startup grants").data, industry ++ (" venture capital").data]

/-- Python truthiness of an optional string argument defaulting to `None`:
`if startup_name:` is false for `None` and for the empty string. -/
def truthy : Option (List Char) → Bool
  | none => false
  | some s => !s.isEmpty

/-- The function `construct_search_queries(startup_name=None, industry=None)`:
start from `base_queries`, prepend the subject query if `startup_name` is
truthy, then prepend the two industry queries if `industry` is truthy. -/
def construct_search_queries (startup_name industry : Option (List Char)) :
    List (List Char) :=
  let queries := base_queries
  let queries := if truthy startup_name
    then subject_query ((startup_name).getD []) :: queries else queries
  if truthy industry
    then industry_queries ((industry).getD []) ++ queries else queries

/-- The final reordering of `find_funding_sources`:
`funding_results + non_funding_results`, each side a filter of
`all_results`. -/
def prioritize (all_results : List Record) : List Record :=
  all_results.filter (fun r => r.is_funding_related)
    ++ all_results.filter (fun r => !r.is_funding_related)

/-- The driver `find_funding_sources`: build the queries, collect extracted
records per query in order, then put funding-related results first.  The
network fetch and HTML parse are the external collaborator, abstracted as
the `fetch` function from a query to the parsed containers of its result
page. -/
def find_funding_sources (fetch : List Char → List Container)
    (startup_name industry : Option (List Char)) (queries_per_topic : Nat)
    (now : List Char) : List Record :=
  let all_results := (construct_search_queries startup_name industry).flatMap
    (fun q => scrape_search_results q queries_per_topic (fetch q) now)
  prioritize all_results

/-- Insertion-ordered dictionary increment, the model of
`d[k] = d.get(k, 0) + 1` on a CPython `dict`: an existing key keeps its
position, a new key is appended. -/
def dict_incr {α : Type} [DecidableEq α] :
    List (α × Nat) → α → List (α × Nat)
  | [], k => [(k, 1)]
  | (k', v) :: rest, k =>
    if k' = k then (k', v + 1) :: rest else (k', v) :: dict_incr rest k

/-- Dictionary lookup with default `0`, the model of `d.get(k, 0)`. -/
def dict_get {α : Type} [DecidableEq α] : List (α × Nat) → α → Nat
  | [], _ => 0
  | (k', v) :: rest, k => if k' = k then v else dict_get rest k

/-- First occurrences of a sequence, those not already in `seen`, kept in
encounter order: the key order a CPython dictionary ends up with. -/
def first_dedup_from {α : Type} [DecidableEq α] (seen : List α) :
    List α → List α
  | [] => []
  | x :: xs =>
    if x ∈ seen then first_dedup_from seen xs
    else x :: first_dedup_from (x :: seen) xs

/-- First occurrences of a sequence in encounter order. -/
def first_dedup {α : Type} [DecidableEq α] (xs : List α) : List α :=
  first_dedup_from [] xs

/-- Number of occurrences of a value in a list. -/
def stream_count {α : Type} [DecidableEq α] (k : α) : List α → Nat
  | [] => 0
  | x :: xs => (if x = k then 1 else 0) + stream_count k xs

/-- Characters allowed in a URL scheme after the first, as in
`urllib.parse`. -/
def is_scheme_char (c : Char) : Bool :=
  c.isAlphanum || c = '+' || c = '-' || c = '.'

/-- Model of the scheme-splitting step of `urllib.parse.urlsplit`: when the
text before the first `:` is a nonempty valid scheme, drop it together with
the colon. -/
def drop_scheme (url : List Char) : List Char :=
  let pre := url.takeWhile (fun c => c ≠ ':')
  if pre.length < url.length ∧ ¬ pre.isEmpty
      ∧ (pre.headD ' ').isAlpha ∧ pre.all is_scheme_char
  then url.drop (pre.length + 1) else url

/-- Model of `urlparse(url).netloc`: after the optional scheme, a netloc is
present only when the remainder starts with `//`, and extends to the next
`/`, `?` or `#`.  Modelled as total: the `ValueError` cases of `urlparse`
(malformed bracketed hosts) make the code's `except: pass` skip a record,
a path not exercised by any claim. -/
def urlparse_netloc (url : List Char) : List Char :=
  let rest := drop_scheme url
  if ("//").data.isPrefixOf rest then
    (rest.drop 2).takeWhile (fun c => c ≠ '/' ∧ c ≠ '?' ∧ c ≠ '#')
  else []

/-- The `keywords` list of `analyze_funding_patterns`. -/
def analysis_keywords : List (List Char) :=
  [("grant").data, ("subsidy").data, ("vc").data, ("angel").data,
   ("series a").data, ("series b").data, ("seed").data, ("million").data,
   ("billion").data, ("funded").data]

/-- The keyword-analysis step of `analyze_funding_patterns` for one record:
`if result["snippet"]:` then for each keyword, `if keyword in
snippet_lower:` increment its dictionary entry. -/
def tally_record (d : List (List Char × Nat)) (r : Record) :
    List (List Char × Nat) :=
  if r.snippet.isEmpty then d
  else analysis_keywords.foldl
    (fun d k => if contains_sub k (lower r.snippet) then dict_incr d k else d) d

/-- The keywords whose dictionary entry one record bumps: none when the
snippet is empty (falsy), otherwise the keywords found in the lower-cased
snippet, in keyword-list order. -/
def matched_keywords (r : Record) : List (List Char) :=
  if r.snippet.isEmpty then []
  else analysis_keywords.filter (fun k => contains_sub k (lower r.snippet))

/-- The `funding_keywords_count` dictionary after the scan of all records. -/
def keyword_counts (results : List Record) : List (List Char × Nat) :=
  results.foldl tally_record []

/-- The `domains` dictionary after the scan of all records:
`domains[urlparse(result["url"]).netloc] += 1` for each record. -/
def domain_counts (results : List Record) : List (List Char × Nat) :=
  results.foldl (fun d r => dict_incr d (urlparse_netloc r.url)) []

/-- Model of `sorted(items, key=lambda x: x[1], reverse=True)` on the items
of an insertion-ordered dictionary.  Python's sort is stable, and a stable
sort by a total preorder has a unique result, so insertion sort with the
descending-count relation is observationally the code's sort. -/
def py_sort_desc {α : Type} (l : List (α × Nat)) : List (α × Nat) :=
  List.insertionSort (fun a b => b.2 ≤ a.2) l

instance {α : Type} : IsTotal (α × Nat) (fun a b => b.2 ≤ a.2) :=
  ⟨fun a b => Nat.le_total b.2 a.2⟩

instance {α : Type} : IsTrans (α × Nat) (fun a b => b.2 ≤ a.2) :=
  ⟨fun _ _ _ h1 h2 => Nat.le_trans h2 h1⟩

/-- The `top_domains` entry of the analysis:
`sorted(domains.items(), key=lambda x: x[1], reverse=True)[:10]`. -/
def top_domains (results : List Record) : List (List Char × Nat) :=
  (py_sort_desc (domain_counts results)).take 10

/-- The `common_keywords` entry of the analysis:
`sorted(funding_keywords_count.items(), key=lambda x: x[1], reverse=True)`. -/
def common_keywords (results : List Record) : List (List Char × Nat) :=
  py_sort_desc (keyword_counts results)

/-- The populated analysis dictionary built by `analyze_funding_patterns`
for a nonempty result list. -/
structure Analysis where
  total_results : Nat
  funding_related_count : Nat
  top_domains : List (List Char × Nat)
  common_keywords : List (List Char × Nat)
  unique_queries : Nat
deriving DecidableEq

/-- The function `analyze_funding_patterns`: `if not results: return {}`,
modelled as `none`; otherwise the populated dictionary. -/
def analyze_funding_patterns (results : List Record) : Option Analysis :=
  if results.isEmpty then none
  else some
    { total_results := results.length,
      funding_related_count := results.countP (fun r => r.is_funding_related),
      top_domains := top_domains results,
      common_keywords := common_keywords results,
      unique_queries := ((results.map (fun r => r.query)).dedup).length }

example : clean_url (("//duckduckgo.com/y.js?u3=https%3A%2F%2Fexample.com%2Fx").data)
    = ("https://example.com/x").data := by decide
example : clean_url (("//example.com/a").data) = ("https://example.com/a").data := by decide
example : clean_url (("http://x.com").data) = ("http://x.com").data := by decide
example : clean_url (("//duckduckgo.com/y.js?x=1").data) = ("//duckduckgo.com/y.js?x=1").data := by decide
example : isFundingRelated (("We raised a Series A").data) = true := by decide
example : isFundingRelated (("A cat sat on a mat").data) = false := by decide
example : urlparse_netloc (("https://example.com/x?q=1").data) = ("example.com").data := by decide
example : urlparse_netloc (("https:foo").data) = ([] : List Char) := by decide
example : construct_search_queries (some (("X").data)) (some (("Y").data)) =
    [("Y startup grants").data, ("Y venture capital").data,
     ("\"X\" funding investors").data] ++ base_queries := by decide

/-- Restatement of the boolean list check as the sub-list relation. -/
lemma isPrefixOf_eq_true_iff (l₁ l₂ : List Char) : l₁.isPrefixOf l₂ = true ↔ l₁ <+: l₂ :=
  List.isPrefixOf_iff_prefix

/-- The substring test agrees with the contiguous-sub-list relation. -/
lemma contains_sub_iff (n h : List Char) : contains_sub n h = true ↔ n <:+: h := by
  induction h with
  | nil => simp [contains_sub, List.isEmpty_iff]
  | cons c t ih =>
    simp [contains_sub, List.infix_cons_iff, ih, isPrefixOf_eq_true_iff]

/-- Lower-casing distributes over concatenation. -/
lemma lower_append (s t : List Char) : lower (s ++ t) = lower s ++ lower t :=
  List.map_append py_lower s t

/-- Every classifier keyword is already lower-case. -/
lemma funding_keywords_lower : ∀ k ∈ funding_keywords, lower k = k := by decide

/-- C7: the classifier returns true iff at least one of the 11 fixed
keywords occurs as a substring of the lower-cased input; the result depends
only on the case-folded text (case-insensitivity), and the function is a
pure total Lean function. -/
theorem C7_classifier (t u : List Char) :
    (isFundingRelated t = true ↔ ∃ k ∈ funding_keywords, k <:+: lower t)
    ∧ (lower t = lower u → isFundingRelated t = isFundingRelated u) := by
  constructor
  · rw [isFundingRelated, List.any_eq_true]
    constructor
    · rintro ⟨k, hk, hsub⟩
      refine ⟨k, hk, ?_⟩
      rw [← funding_keywords_lower k hk]
      exact (contains_sub_iff _ _).1 hsub
    · rintro ⟨k, hk, hsub⟩
      refine ⟨k, hk, (contains_sub_iff _ _).2 ?_⟩
      rw [funding_keywords_lower k hk]
      exact hsub
  · intro hlt
    rw [isFundingRelated, isFundingRelated, hlt]

/-- Witness for C7 at concrete inputs differing only in case. -/
theorem C7_classifier_witness :
    (isFundingRelated (("FUNDING news").data) = true
      ↔ ∃ k ∈ funding_keywords, k <:+: lower (("FUNDING news").data))
    ∧ isFundingRelated (("FUNDING news").data)
      = isFundingRelated (("funding NEWS").data) :=
  ⟨(C7_classifier (("FUNDING news").data) (("funding NEWS").data)).1,
   (C7_classifier (("FUNDING news").data) (("funding NEWS").data)).2 (by decide)⟩

/-- C10: the classification is monotone under extending the text on either
side. -/
theorem C10_monotone (t u : List Char) (h : isFundingRelated t = true) :
    isFundingRelated (t ++ u) = true ∧ isFundingRelated (u ++ t) = true := by
  rw [isFundingRelated, List.any_eq_true] at h
  obtain ⟨k, hk, hsub⟩ := h
  rw [contains_sub_iff] at hsub
  obtain ⟨s, e, hse⟩ := hsub
  constructor
  · rw [isFundingRelated, List.any_eq_true]
    refine ⟨k, hk, (contains_sub_iff _ _).2 ?_⟩
    rw [lower_append]
    exact ⟨s, e ++ lower u, by rw [← hse]; simp⟩
  · rw [isFundingRelated, List.any_eq_true]
    refine ⟨k, hk, (contains_sub_iff _ _).2 ?_⟩
    rw [lower_append]
    exact ⟨lower u ++ s, e, by rw [← hse]; simp⟩

/-- Witness for C10 at a concrete funding-related text. -/
theorem C10_monotone_witness :
    isFundingRelated ((("We raised cash").data) ++ (("!").data)) = true
    ∧ isFundingRelated ((("!").data) ++ (("We raised cash").data)) = true :=
  C10_monotone (("We raised cash").data) (("!").data) (by decide)

/-- A string starting with `https` starts with `http`. -/
lemma http_of_https (s : List Char) (h : ("https").data.isPrefixOf s = true) :
    ("http").data.isPrefixOf s = true := by
  rw [isPrefixOf_eq_true_iff] at h ⊢
  obtain ⟨e, he⟩ := h
  exact ⟨('s') :: e, by rw [← he]; rfl⟩

/-- C5: the URL resolver of the code equals, on every input string, the
four-case function worded by the spec, and meets the spec's concrete
examples: wrapper with destination parameter (percent-decoded), wrapper
without the parameter (unchanged), scheme-qualified input (unchanged), and
scheme-relative input (prefixed with `https:`).  Totality and determinism
hold because `clean_url` is a total Lean function. -/
theorem C5_resolver :
    (∀ rawHref : List Char, clean_url rawHref = resolve_spec rawHref)
    ∧ clean_url (("//duckduckgo.com/y.js?u3=https%3A%2F%2Fexample.com%2Fx").data)
        = ("https://example.com/x").data
    ∧ clean_url (("//duckduckgo.com/y.js?x=1").data) = ("//duckduckgo.com/y.js?x=1").data
    ∧ clean_url (("http://x.com").data) = ("http://x.com").data
    ∧ clean_url (("//example.com/a").data) = ("https://example.com/a").data := by
  refine ⟨?_, by decide, by decide, by decide, by decide⟩
  intro s
  unfold clean_url resolve_spec
  by_cases hw : wrapper_head.isPrefixOf s = true
  · simp [hw]
  · rw [Bool.not_eq_true] at hw
    by_cases hh : ("http").data.isPrefixOf s = true
    · simp [hw, hh]
    · have hhs : ¬ ("https").data.isPrefixOf s = true := fun h => hh (http_of_https s h)
      simp [hw, hh, hhs]

/-- C2 counterexample: with both a startup name and an industry given, the
first query is the first industry phrase, not the quoted subject phrase the
claim puts first. -/
theorem C2_counterexample :
    construct_search_queries (some (("X").data)) (some (("Y").data)) =
      [("Y startup grants").data, ("Y venture capital").data,
       ("\"X\" funding investors").data] ++ base_queries
    ∧ (construct_search_queries (some (("X").data)) (some (("Y").data))).head?
      ≠ some (subject_query (("X").data)) := by
  constructor
  · decide
  · decide

/-- C2 as amended: the output is always [industry phrases if truthy,
subject phrase if truthy, the 7 base phrases] — so with both inputs given
the two industry phrases come first and the subject phrase third; the
length is 7 + 2·[industry truthy] + 1·[subject truthy]; and the base set
keeps its order as a suffix.  (Python truthiness: `None` and the empty
string both count as not given.) -/
theorem C2_query_order (startup_name industry : Option (List Char)) :
    construct_search_queries startup_name industry =
      (if truthy industry then industry_queries (industry.getD []) else [])
        ++ (if truthy startup_name then [subject_query (startup_name.getD [])] else [])
        ++ base_queries
    ∧ (construct_search_queries startup_name industry).length =
        7 + (if truthy industry then 2 else 0) + (if truthy startup_name then 1 else 0)
    ∧ base_queries <:+ construct_search_queries startup_name industry := by
  have h1 : construct_search_queries startup_name industry =
      (if truthy industry then industry_queries (industry.getD []) else [])
        ++ (if truthy startup_name then [subject_query (startup_name.getD [])] else [])
        ++ base_queries := by
    unfold construct_search_queries
    by_cases hs : truthy startup_name = true <;> by_cases hi : truthy industry = true <;>
      simp [hs, hi]
  refine ⟨h1, ?_, ?_⟩
  · rw [h1]
    by_cases hs : truthy startup_name = true <;> by_cases hi : truthy industry = true <;>
      simp [hs, hi, industry_queries, base_queries]
  · rw [h1]
    exact ⟨_, rfl⟩

/-- C3 counterexample: on the empty corpus the code returns the empty
dictionary, not a populated report with zero counts and empty tables. -/
theorem C3_counterexample :
    analyze_funding_patterns [] = none
    ∧ ¬ ∃ a : Analysis, analyze_funding_patterns [] = some a
        ∧ a.total_results = 0 ∧ a.funding_related_count = 0
        ∧ a.top_domains = [] ∧ a.common_keywords = [] := by
  refine ⟨rfl, ?_⟩
  rintro ⟨a, ha, -⟩
  simp [analyze_funding_patterns] at ha

/-- C3 as amended: the aggregator never fails, and it returns the empty
dictionary (no fields at all) exactly when the corpus is empty; otherwise
it returns the populated report. -/
theorem C3_empty_report (results : List Record) :
    analyze_funding_patterns results = none ↔ results = [] := by
  unfold analyze_funding_patterns
  by_cases h : results = []
  · simp [h]
  · have hb : results.isEmpty = false := by
      cases hb : results.isEmpty
      · rfl
      · exact absurd (List.isEmpty_iff.1 (by rw [hb])) h
    simp [hb, h]

/-- A container without a title element is skipped (`continue`). -/
lemma extract_record_eq_none (query now : List Char) (n : Nat) (c : Container)
    (h : c.title_elem = none) : extract_record query now n c = none := by
  simp [extract_record, h]

/-- The rank field of an extracted record is the rank value handed to the
loop body. -/
lemma rank_of_extract_record (query now : List Char) (n : Nat) (c : Container)
    (r : Record) (h : extract_record query now n c = some r) : r.rank = n := by
  cases hc : c.title_elem with
  | none => rw [extract_record_eq_none query now n c hc] at h; cases h
  | some te =>
    simp [extract_record, hc] at h
    rw [← h]

/-- The url field of an extracted record is the cleaned raw href of the
container's title element. -/
lemma url_of_extract_record (query now : List Char) (n : Nat) (c : Container)
    (r : Record) (h : extract_record query now n c = some r) :
    ∃ te, c.title_elem = some te ∧ r.url = clean_url (te.href.getD []) := by
  cases hc : c.title_elem with
  | none => rw [extract_record_eq_none query now n c hc] at h; cases h
  | some te =>
    refine ⟨te, rfl, ?_⟩
    simp [extract_record, hc] at h
    rw [← h]

/-- Ranks of the extraction output, over any indexed container list: each
surviving container keeps its own enumeration index plus one. -/
lemma rank_map (query now : List Char) (l : List (Nat × Container)) :
    ((l.filterMap (fun ic => extract_record query now (ic.1 + 1) ic.2)).map
        (fun r => r.rank))
      = (l.filter (fun ic => (ic.2).title_elem.isSome)).map (fun ic => ic.1 + 1) := by
  induction l with
  | nil => rfl
  | cons ic l ih =>
    cases hc : ic.2.title_elem with
    | none =>
      have he : extract_record query now (ic.1 + 1) ic.2 = none :=
        extract_record_eq_none _ _ _ _ hc
      simp [List.filterMap_cons, List.filter_cons, he, hc, ih]
    | some te =>
      cases he : extract_record query now (ic.1 + 1) ic.2 with
      | none => simp [extract_record, hc] at he
      | some r =>
        have hrank := rank_of_extract_record _ _ _ _ _ he
        simp [List.filterMap_cons, List.filter_cons, he, hc, ih, hrank]

/-- Indices listed by `enumFrom` start at the given base. -/
lemma le_fst_of_mem_enumFrom {α : Type} :
    ∀ (l : List α) (n : Nat) (x : Nat × α), x ∈ List.enumFrom n l → n ≤ x.1 := by
  intro l
  induction l with
  | nil => intro n x hx; cases hx
  | cons a l ih =>
    intro n x hx
    rcases List.mem_cons.1 hx with rfl | hx
    · exact Nat.le_refl n
    · exact Nat.le_of_succ_le (ih (n + 1) x hx)

/-- Indices listed by `enumFrom` are strictly increasing. -/
lemma pairwise_fst_enumFrom {α : Type} :
    ∀ (l : List α) (n : Nat), (List.enumFrom n l).Pairwise (fun a b => a.1 < b.1) := by
  intro l
  induction l with
  | nil => intro n; exact List.Pairwise.nil
  | cons a l ih =>
    intro n
    refine List.Pairwise.cons (fun x hx => ?_) (ih (n + 1))
    exact Nat.lt_of_lt_of_le (Nat.lt_succ_self n) (le_fst_of_mem_enumFrom l (n + 1) x hx)

/-- An element of `enumFrom` carries an element of the underlying list. -/
lemma snd_mem_of_mem_enumFrom {α : Type} :
    ∀ (l : List α) (n : Nat) (x : Nat × α), x ∈ List.enumFrom n l → x.2 ∈ l := by
  intro l
  induction l with
  | nil => intro n x hx; cases hx
  | cons a l ih =>
    intro n x hx
    rcases List.mem_cons.1 hx with rfl | hx
    · exact List.mem_cons_self a l
    · exact List.mem_cons_of_mem a (ih (n + 1) x hx)

/-- C1 counterexample: a page whose first container is malformed and whose
second is valid yields a single record of rank 2, not the contiguous 1..1
the claim requires. -/
theorem C1_counterexample :
    ((scrape_search_results (("q").data) 30
        [⟨none, none, none⟩,
         ⟨some ⟨("T").data, some (("http://a.com/x").data)⟩, none, none⟩]
        (("ts").data)).map (fun r => r.rank)) = [2]
    ∧ ((scrape_search_results (("q").data) 30
        [⟨none, none, none⟩,
         ⟨some ⟨("T").data, some (("http://a.com/x").data)⟩, none, none⟩]
        (("ts").data)).length) = 1
    ∧ [2] ≠ List.range' 1 1 := by
  refine ⟨by decide, by decide, by decide⟩

/-- C1 as amended: each extracted record's rank is 1 plus its container's
0-based position among the first `max_results` raw containers of the page,
so a malformed container does consume a rank slot; ranks are strictly
increasing but need not be contiguous. -/
theorem C1_rank_container_position (query now : List Char) (max_results : Nat)
    (containers : List Container) :
    ((scrape_search_results query max_results containers now).map (fun r => r.rank))
      = ((containers.take max_results).enum.filter
          (fun ic => (ic.2).title_elem.isSome)).map (fun ic => ic.1 + 1)
    ∧ (((scrape_search_results query max_results containers now).map
        (fun r => r.rank)).Pairwise (fun a b => a < b)) := by
  have h1 : ((scrape_search_results query max_results containers now).map
      (fun r => r.rank))
      = ((containers.take max_results).enum.filter
          (fun ic => (ic.2).title_elem.isSome)).map (fun ic => ic.1 + 1) :=
    rank_map query now ((containers.take max_results).enum)
  refine ⟨h1, ?_⟩
  rw [h1, List.pairwise_map]
  refine List.Pairwise.sublist (List.filter_sublist _) ?_
  refine List.Pairwise.imp ?_ (pairwise_fst_enumFrom (containers.take max_results) 0)
  intro a b hab
  exact Nat.succ_lt_succ hab

/-- C4 counterexample: a raw href matching the wrapper pattern but lacking
the `u3` parameter flows into the record verbatim, so the record's url is
the raw redirect-wrapper form and is not scheme-qualified. -/
theorem C4_counterexample :
    ((scrape_search_results (("q").data) 30
        [⟨some ⟨("T").data, some (("//duckduckgo.com/y.js?x=1").data)⟩, none, none⟩]
        (("ts").data)).map (fun r => r.url))
      = [("//duckduckgo.com/y.js?x=1").data]
    ∧ ("http").data.isPrefixOf (("//duckduckgo.com/y.js?x=1").data) = false
    ∧ wrapper_head.isPrefixOf (("//duckduckgo.com/y.js?x=1").data) = true := by
  refine ⟨by decide, by decide, by decide⟩

/-- C4 as amended: every record's url is the resolver's output on the raw
href of its container's title element; whenever the raw href does not match
the redirect-wrapper pattern the url is scheme-qualified (begins with
`http`); when the wrapper pattern matches but the destination parameter is
absent the url is the raw wrapper href unchanged. -/
theorem C4_url_resolution :
    (∀ (query now : List Char) (max_results : Nat) (containers : List Container)
        (r : Record), r ∈ scrape_search_results query max_results containers now →
        ∃ c ∈ containers, ∃ te, c.title_elem = some te
          ∧ r.url = clean_url (te.href.getD []))
    ∧ (∀ s : List Char, wrapper_head.isPrefixOf s = false →
        ("http").data.isPrefixOf (clean_url s) = true)
    ∧ (∀ s : List Char, wrapper_head.isPrefixOf s = true → capture_u3 s = none →
        clean_url s = s) := by
  refine ⟨?_, ?_, ?_⟩
  · intro query now max_results containers r hr
    rw [scrape_search_results, List.mem_filterMap] at hr
    obtain ⟨ic, hic, hex⟩ := hr
    obtain ⟨te, hte, hurl⟩ := url_of_extract_record _ _ _ _ _ hex
    exact ⟨ic.2, List.mem_of_mem_take
      (snd_mem_of_mem_enumFrom _ 0 ic hic), te, hte, hurl⟩
  · intro s hw
    rw [clean_url, if_neg (by rw [hw]; exact Bool.false_ne_true)]
    by_cases hh : ("http").data.isPrefixOf s = true
    · rw [if_pos hh]
      exact hh
    · rw [if_neg hh, isPrefixOf_eq_true_iff]
      exact ⟨('s') :: (':') :: s, rfl⟩
  · intro s hw hc
    rw [clean_url, if_pos hw, hc]

/-- Witness for C4 at concrete inputs, one per hypothesis shape. -/
theorem C4_url_resolution_witness :
    (∃ c ∈ ([⟨some ⟨("T").data, some (("//x.com/a").data)⟩, none, none⟩] :
        List Container), ∃ te, c.title_elem = some te
      ∧ (Record.mk (("q").data) 1 (("T").data) (("https://x.com/a").data) [] []
          false (("ts").data)).url = clean_url (te.href.getD []))
    ∧ ("http").data.isPrefixOf (clean_url (("//a.org/p").data)) = true
    ∧ clean_url (("//duckduckgo.com/y.js?z=9").data) = ("//duckduckgo.com/y.js?z=9").data :=
  ⟨C4_url_resolution.1 (("q").data) (("ts").data) 30
      [⟨some ⟨("T").data, some (("//x.com/a").data)⟩, none, none⟩]
      (Record.mk (("q").data) 1 (("T").data) (("https://x.com/a").data) [] []
        false (("ts").data)) (by decide),
   C4_url_resolution.2.1 (("//a.org/p").data) (by decide),
   C4_url_resolution.2.2 (("//duckduckgo.com/y.js?z=9").data) (by decide) (by decide)⟩

/-- Filtering twice by the same predicate changes nothing. -/
lemma filter_filter_self {α : Type} (p : α → Bool) (l : List α) :
    (l.filter p).filter p = l.filter p := by
  induction l with
  | nil => rfl
  | cons x l ih =>
    by_cases h : p x = true <;> simp [List.filter_cons, h, ih]

/-- Filtering by a predicate after its negation yields nothing. -/
lemma filter_neg_filter {α : Type} (p : α → Bool) (l : List α) :
    (l.filter (fun a => !p a)).filter p = [] := by
  induction l with
  | nil => rfl
  | cons x l ih =>
    by_cases h : p x = true <;> simp [List.filter_cons, h, ih]

/-- Filtering by the negation after the predicate yields nothing. -/
lemma filter_filter_neg {α : Type} (p : α → Bool) (l : List α) :
    (l.filter p).filter (fun a => !p a) = [] := by
  induction l with
  | nil => rfl
  | cons x l ih =>
    by_cases h : p x = true <;> simp [List.filter_cons, h, ih]

/-- Any list all of whose members satisfy the respective side of the
predicate is pairwise ordered for the never-false-before-true relation. -/
lemma pairwise_of_all {α : Type} (p : α → Bool) (l : List α)
    (h : ∀ a ∈ l, p a = true) :
    l.Pairwise (fun a b => p b = true → p a = true) := by
  induction l with
  | nil => exact List.Pairwise.nil
  | cons x l ih =>
    refine List.Pairwise.cons (fun y _ _ => h x (List.mem_cons_self x l)) ?_
    exact ih (fun a ha => h a (List.mem_cons_of_mem x ha))

/-- Any list all of whose members falsify the predicate is vacuously
pairwise ordered for the never-false-before-true relation. -/
lemma pairwise_of_all_neg {α : Type} (p : α → Bool) (l : List α)
    (h : ∀ a ∈ l, p a = false) :
    l.Pairwise (fun a b => p b = true → p a = true) := by
  induction l with
  | nil => exact List.Pairwise.nil
  | cons x l ih =>
    refine List.Pairwise.cons (fun y hy hyt => ?_)
      (ih fun a ha => h a (List.mem_cons_of_mem x ha))
    rw [h y (List.mem_cons_of_mem x hy)] at hyt
    cases hyt

/-- C6: the corpus returned by `find_funding_sources` is the stable
partition of the collected records by `is_funding_related`: the output is
`prioritize` of the records collected query by query, the funding-related
subsequence of the output equals that of the input (same relative order),
likewise the non-funding subsequence, the output is a permutation of the
input, and no non-funding record ever precedes a funding one. -/
theorem C6_stable_partition (fetch : List Char → List Container)
    (startup_name industry : Option (List Char)) (queries_per_topic : Nat)
    (now : List Char) :
    find_funding_sources fetch startup_name industry queries_per_topic now
      = prioritize ((construct_search_queries startup_name industry).flatMap
          (fun q => scrape_search_results q queries_per_topic (fetch q) now))
    ∧ ∀ rs : List Record,
        ((prioritize rs).filter (fun r => r.is_funding_related)
          = rs.filter (fun r => r.is_funding_related))
        ∧ ((prioritize rs).filter (fun r => !r.is_funding_related)
          = rs.filter (fun r => !r.is_funding_related))
        ∧ List.Perm (prioritize rs) rs
        ∧ (prioritize rs).Pairwise
            (fun a b => b.is_funding_related = true → a.is_funding_related = true) := by
  refine ⟨rfl, fun rs => ⟨?_, ?_, ?_, ?_⟩⟩
  · rw [prioritize, List.filter_append, filter_filter_self, filter_neg_filter,
      List.append_nil]
  · rw [prioritize, List.filter_append, filter_filter_neg, List.nil_append]
    exact filter_filter_self _ rs
  · exact List.filter_append_perm _ rs
  · rw [prioritize]
    refine List.pairwise_append.2 ⟨?_, ?_, ?_⟩
    · exact pairwise_of_all (fun r : Record => r.is_funding_related) _
        (fun a ha => (List.mem_filter.1 ha).2)
    · refine pairwise_of_all_neg (fun r : Record => r.is_funding_related) _ ?_
      intro a ha
      have := (List.mem_filter.1 ha).2
      simpa using this
    · intro a ha b hb hbt
      exact (List.mem_filter.1 ha).2

/-- Incrementing key `x` raises the count at `x` by one and leaves every
other count unchanged. -/
lemma dict_get_incr {α : Type} [DecidableEq α] (d : List (α × Nat)) (x k : α) :
    dict_get (dict_incr d x) k = dict_get d k + (if x = k then 1 else 0) := by
  induction d with
  | nil =>
    by_cases h : x = k <;> simp [dict_incr, dict_get, h]
  | cons kv d ih =>
    obtain ⟨k', v⟩ := kv
    by_cases h1 : k' = x
    · rw [dict_incr, if_pos h1]
      by_cases h2 : k' = k
      · rw [dict_get, if_pos h2, dict_get, if_pos h2, if_pos (h1.symm.trans h2)]
      · rw [dict_get, if_neg h2, dict_get, if_neg h2,
          if_neg (fun hxk => h2 (h1.trans hxk)), Nat.add_zero]
    · rw [dict_incr, if_neg h1]
      by_cases h2 : k' = k
      · rw [dict_get, if_pos h2, dict_get, if_pos h2,
          if_neg (fun hxk => h1 (h2.trans hxk.symm)), Nat.add_zero]
      · rw [dict_get, if_neg h2, dict_get, if_neg h2, ih]

/-- Folding increments over a key stream counts occurrences. -/
lemma dict_get_foldl {α : Type} [DecidableEq α] (xs : List α) :
    ∀ (d : List (α × Nat)) (k : α),
      dict_get (xs.foldl dict_incr d) k = dict_get d k + stream_count k xs := by
  induction xs with
  | nil => intro d k; simp [stream_count]
  | cons x xs ih =>
    intro d k
    rw [List.foldl_cons, ih, dict_get_incr, stream_count]
    omega

/-- Incrementing keeps the keys, except that a new key is appended. -/
lemma keys_dict_incr {α : Type} [DecidableEq α] (d : List (α × Nat)) (x : α) :
    (dict_incr d x).map Prod.fst
      = if x ∈ d.map Prod.fst then d.map Prod.fst
        else d.map Prod.fst ++ [x] := by
  induction d with
  | nil => simp [dict_incr]
  | cons kv d ih =>
    obtain ⟨k', v⟩ := kv
    by_cases h : k' = x
    · subst h
      simp [dict_incr]
    · rw [dict_incr, if_neg h]
      by_cases hx : x ∈ d.map Prod.fst
      · simp [hx, ih, Ne.symm h]
      · simp [hx, ih, Ne.symm h]

/-- Incrementing preserves key distinctness. -/
lemma nodup_keys_dict_incr {α : Type} [DecidableEq α] (d : List (α × Nat))
    (x : α) (h : (d.map Prod.fst).Nodup) :
    ((dict_incr d x).map Prod.fst).Nodup := by
  rw [keys_dict_incr]
  by_cases hx : x ∈ d.map Prod.fst
  · rw [if_pos hx]; exact h
  · rw [if_neg hx]
    exact List.nodup_append.2 ⟨h, List.nodup_singleton x,
      fun a ha hb => hx ((List.mem_singleton.1 hb) ▸ ha)⟩

/-- Incrementing preserves value positivity. -/
lemma pos_dict_incr {α : Type} [DecidableEq α] (d : List (α × Nat)) (x : α)
    (h : ∀ kv ∈ d, 1 ≤ kv.2) : ∀ kv ∈ dict_incr d x, 1 ≤ kv.2 := by
  induction d with
  | nil =>
    intro kv hkv
    rcases List.mem_singleton.1 hkv with rfl
    exact Nat.le_refl 1
  | cons hd d ih =>
    obtain ⟨k', v⟩ := hd
    intro kv hkv
    rw [dict_incr] at hkv
    by_cases h1 : k' = x
    · rw [if_pos h1] at hkv
      rcases List.mem_cons.1 hkv with rfl | hkv'
      · exact Nat.succ_le_succ (Nat.zero_le v)
      · exact h kv (List.mem_cons_of_mem _ hkv')
    · rw [if_neg h1] at hkv
      rcases List.mem_cons.1 hkv with rfl | hkv'
      · exact h (k', v) (List.mem_cons_self _ _)
      · exact ih (fun kv hkv => h kv (List.mem_cons_of_mem _ hkv)) kv hkv'

/-- With distinct keys, lookup of a present entry returns its value. -/
lemma dict_get_of_mem {α : Type} [DecidableEq α] (d : List (α × Nat)) (k : α)
    (v : Nat) (hd : (d.map Prod.fst).Nodup) (h : (k, v) ∈ d) :
    dict_get d k = v := by
  induction d with
  | nil => cases h
  | cons kv d ih =>
    obtain ⟨k', v'⟩ := kv
    rcases List.mem_cons.1 h with heq | hmem
    · cases heq
      rw [dict_get, if_pos rfl]
    · rw [dict_get]
      have hk : k' ≠ k := by
        intro hkk
        subst hkk
        have : k' ∈ d.map Prod.fst :=
          List.mem_map.2 ⟨(k', v), hmem, rfl⟩
        exact (List.nodup_cons.1 hd).1 this
      rw [if_neg hk]
      exact ih (List.nodup_cons.1 hd).2 hmem

/-- Lookup of an absent key returns zero. -/
lemma dict_get_of_not_mem {α : Type} [DecidableEq α] (d : List (α × Nat))
    (k : α) (h : k ∉ d.map Prod.fst) : dict_get d k = 0 := by
  induction d with
  | nil => rfl
  | cons kv d ih =>
    obtain ⟨k', v'⟩ := kv
    rw [dict_get, if_neg (fun hkk => h (List.mem_map.2 ⟨(k', v'), List.mem_cons_self _ _, hkk⟩))]
    exact ih (fun hm => h (List.mem_cons_of_mem _ hm))

/-- Keys after folding a stream of increments: the old keys plus the keys
that occur in the stream. -/
lemma mem_keys_foldl {α : Type} [DecidableEq α] (xs : List α) :
    ∀ (d : List (α × Nat)) (k : α),
      k ∈ (xs.foldl dict_incr d).map Prod.fst
        ↔ k ∈ d.map Prod.fst ∨ k ∈ xs := by
  induction xs with
  | nil => intro d k; simp
  | cons x xs ih =>
    intro d k
    rw [List.foldl_cons, ih, keys_dict_incr, List.mem_cons]
    by_cases hx : x ∈ d.map Prod.fst
    · rw [if_pos hx]
      constructor
      · rintro (h | h)
        · exact Or.inl h
        · exact Or.inr (Or.inr h)
      · rintro (h | rfl | h)
        · exact Or.inl h
        · exact Or.inl hx
        · exact Or.inr h
    · rw [if_neg hx, List.mem_append, List.mem_singleton]
      tauto

/-- Folding increments preserves key distinctness. -/
lemma nodup_keys_foldl {α : Type} [DecidableEq α] (xs : List α) :
    ∀ d : List (α × Nat), (d.map Prod.fst).Nodup →
      ((xs.foldl dict_incr d).map Prod.fst).Nodup := by
  induction xs with
  | nil => intro d h; exact h
  | cons x xs ih =>
    intro d h
    rw [List.foldl_cons]
    exact ih _ (nodup_keys_dict_incr d x h)

/-- Folding increments preserves value positivity. -/
lemma pos_foldl {α : Type} [DecidableEq α] (xs : List α) :
    ∀ d : List (α × Nat), (∀ kv ∈ d, 1 ≤ kv.2) →
      ∀ kv ∈ xs.foldl dict_incr d, 1 ≤ kv.2 := by
  induction xs with
  | nil => intro d h; exact h
  | cons x xs ih =>
    intro d h
    rw [List.foldl_cons]
    exact ih _ (pos_dict_incr d x h)

/-- A guarded increment fold is the plain fold over the filtered keys. -/
lemma foldl_cond_incr {α : Type} [DecidableEq α] (p : α → Bool) (ks : List α) :
    ∀ d : List (α × Nat),
      ks.foldl (fun d k => if p k then dict_incr d k else d) d
        = (ks.filter p).foldl dict_incr d := by
  induction ks with
  | nil => intro d; rfl
  | cons k ks ih =>
    intro d
    by_cases h : p k = true <;> simp [List.filter_cons, h, ih]

/-- One record's pass over the keyword list is the increment fold over its
matched keywords. -/
lemma tally_record_eq (d : List (List Char × Nat)) (r : Record) :
    tally_record d r = (matched_keywords r).foldl dict_incr d := by
  rw [tally_record, matched_keywords]
  by_cases hs : r.snippet.isEmpty = true
  · simp [hs]
  · rw [if_neg hs, if_neg hs, foldl_cond_incr]

/-- The whole keyword tally is the increment fold over the concatenated
streams of matched keywords. -/
lemma keyword_counts_eq (results : List Record) :
    ∀ d : List (List Char × Nat),
      results.foldl tally_record d
        = (results.flatMap matched_keywords).foldl dict_incr d := by
  induction results with
  | nil => intro d; rfl
  | cons r rs ih =>
    intro d
    rw [List.foldl_cons, ih, List.flatMap_cons, List.foldl_append, tally_record_eq]

/-- The analysis keyword list has distinct entries. -/
lemma analysis_keywords_nodup : analysis_keywords.Nodup := by decide

/-- Every analysis keyword is a nonempty string. -/
lemma analysis_keywords_ne_nil : ∀ k ∈ analysis_keywords, k ≠ [] := by decide

/-- Occurrence counts add over concatenation. -/
lemma stream_count_append {α : Type} [DecidableEq α] (k : α) (l₁ l₂ : List α) :
    stream_count k (l₁ ++ l₂) = stream_count k l₁ + stream_count k l₂ := by
  induction l₁ with
  | nil => simp [stream_count]
  | cons x l₁ ih =>
    rw [List.cons_append, stream_count, stream_count, ih]
    omega

/-- An absent value occurs zero times. -/
lemma stream_count_eq_zero {α : Type} [DecidableEq α] (k : α) (l : List α)
    (h : k ∉ l) : stream_count k l = 0 := by
  induction l with
  | nil => rfl
  | cons x l ih =>
    rw [stream_count,
      if_neg (fun hx : x = k => h (by rw [← hx]; exact List.mem_cons_self x l)),
      ih (fun hm => h (List.mem_cons_of_mem x hm))]

/-- A member of a duplicate-free list occurs exactly once. -/
lemma stream_count_nodup_mem {α : Type} [DecidableEq α] (k : α) (l : List α)
    (hd : l.Nodup) (h : k ∈ l) : stream_count k l = 1 := by
  induction l with
  | nil => cases h
  | cons x l ih =>
    rcases List.mem_cons.1 h with rfl | hm
    · rw [stream_count, if_pos rfl,
        stream_count_eq_zero k l (List.nodup_cons.1 hd).1]
    · rw [stream_count,
        if_neg (fun hx : x = k => (List.nodup_cons.1 hd).1 (by rw [hx]; exact hm)),
        ih (List.nodup_cons.1 hd).2 hm]

/-- Filtering by a predicate the value satisfies keeps its count. -/
lemma stream_count_filter_of_pos {α : Type} [DecidableEq α] (p : α → Bool)
    (l : List α) (k : α) (h : p k = true) :
    stream_count k (l.filter p) = stream_count k l := by
  induction l with
  | nil => rfl
  | cons x l ih =>
    by_cases hp : p x = true
    · rw [List.filter_cons, if_pos hp, stream_count, stream_count, ih]
    · rw [List.filter_cons, if_neg hp, ih, stream_count,
        if_neg (fun hx : x = k => hp (by rw [hx]; exact h)), Nat.zero_add]

/-- A record bumps a given keyword at most once: its matched-keyword stream
contains the keyword once when the lower-cased snippet contains it, else
not at all. -/
lemma count_matched_keywords (r : Record) (k : List Char)
    (hk : k ∈ analysis_keywords) :
    stream_count k (matched_keywords r)
      = if contains_sub k (lower r.snippet) then 1 else 0 := by
  rw [matched_keywords]
  by_cases hs : r.snippet.isEmpty = true
  · rw [if_pos hs]
    have hnil : r.snippet = [] := List.isEmpty_iff.1 hs
    have hk0 : contains_sub k (lower r.snippet) = false := by
      rw [hnil]
      cases hke : k with
      | nil => exact absurd hke (analysis_keywords_ne_nil _ hk)
      | cons c cs => rfl
    rw [hk0]
    rfl
  · rw [if_neg hs]
    by_cases hm : contains_sub k (lower r.snippet) = true
    · rw [if_pos hm,
        stream_count_filter_of_pos (fun k => contains_sub k (lower r.snippet)) _ k hm]
      exact stream_count_nodup_mem k analysis_keywords analysis_keywords_nodup hk
    · rw [if_neg hm, stream_count_eq_zero]
      intro hmem
      exact hm (List.mem_filter.1 hmem).2

/-- The tally of one keyword equals the number of records whose lower-cased
snippet contains it. -/
lemma keyword_counts_spec (results : List Record) (k : List Char)
    (hk : k ∈ analysis_keywords) :
    dict_get (keyword_counts results) k
      = results.countP (fun r => contains_sub k (lower r.snippet)) := by
  rw [keyword_counts, keyword_counts_eq results [], dict_get_foldl]
  rw [show dict_get ([] : List (List Char × Nat)) k = 0 from rfl, Nat.zero_add]
  induction results with
  | nil => rfl
  | cons r rs ih =>
    rw [List.flatMap_cons, stream_count_append, ih, List.countP_cons,
      count_matched_keywords r k hk]
    omega

/-- C8: the aggregator's keyword tally counts, for each of the 10 analysis
keywords, the records whose lower-cased snippet contains the keyword — the
scan reads the snippet only, is case-insensitive, and a record increments a
keyword's count at most once however often the keyword repeats. -/
theorem C8_keyword_tally (results : List Record) (k : List Char)
    (hk : k ∈ analysis_keywords) :
    dict_get (keyword_counts results) k
      = results.countP (fun r => contains_sub k (lower r.snippet)) :=
  keyword_counts_spec results k hk

/-- Witness for C8: one record whose snippet repeats a keyword three times
in three cases contributes one, and one empty-snippet record contributes
nothing. -/
theorem C8_keyword_tally_witness :
    (("grant").data ∈ analysis_keywords)
    ∧ dict_get (keyword_counts
        [Record.mk (("q").data) 1 (("T").data) (("http://a.com").data) []
           (("Grant GRANT grant").data) true (("ts").data),
         Record.mk (("q").data) 2 (("T").data) (("http://a.com").data) []
           [] false (("ts").data)])
        (("grant").data)
      = List.countP (fun r => contains_sub (("grant").data) (lower r.snippet))
        [Record.mk (("q").data) 1 (("T").data) (("http://a.com").data) []
           (("Grant GRANT grant").data) true (("ts").data),
         Record.mk (("q").data) 2 (("T").data) (("http://a.com").data) []
           [] false (("ts").data)] :=
  ⟨by decide,
   C8_keyword_tally
     [Record.mk (("q").data) 1 (("T").data) (("http://a.com").data) []
        (("Grant GRANT grant").data) true (("ts").data),
      Record.mk (("q").data) 2 (("T").data) (("http://a.com").data) []
        [] false (("ts").data)]
     (("grant").data) (by decide)⟩

/-- Unfolding equation of the sort model on a cons cell. -/
lemma py_sort_desc_cons {α : Type} (x : α × Nat) (l : List (α × Nat)) :
    py_sort_desc (x :: l)
      = List.orderedInsert (fun a b => b.2 ≤ a.2) x (py_sort_desc l) :=
  rfl

/-- Inserting an element commutes with filtering by an exact count: the
element lands in front of every kept element of the same count. -/
lemma orderedInsert_filter_count {α : Type} (c : Nat) (x : α × Nat)
    (l : List (α × Nat)) :
    (List.orderedInsert (fun a b => b.2 ≤ a.2) x l).filter (fun y => y.2 == c)
      = if x.2 == c then x :: l.filter (fun y => y.2 == c)
        else l.filter (fun y => y.2 == c) := by
  induction l with
  | nil =>
    by_cases hx : (x.2 == c) = true <;>
      simp [List.orderedInsert, List.filter_cons, hx]
  | cons y ys ih =>
    by_cases hr : y.2 ≤ x.2
    · simp only [List.orderedInsert, if_pos hr, List.filter_cons]
    · have hlt : x.2 < y.2 := Nat.lt_of_not_le hr
      simp only [List.orderedInsert, if_neg hr, List.filter_cons]
      rw [ih]
      by_cases hx : (x.2 == c) = true
      · have hxc : x.2 = c := beq_iff_eq.1 hx
        have hyc : (y.2 == c) = false := by
          rw [beq_eq_false_iff_ne]
          omega
        simp [hx, hyc]
      · by_cases hy : (y.2 == c) = true <;> simp [hx, hy]

/-- Stability of the sort model: for every count value, the entries holding
that count appear in the sorted output exactly in their original order. -/
lemma py_sort_desc_filter_count {α : Type} (c : Nat) (l : List (α × Nat)) :
    (py_sort_desc l).filter (fun y => y.2 == c) = l.filter (fun y => y.2 == c) := by
  induction l with
  | nil => rfl
  | cons x l ih =>
    rw [py_sort_desc_cons, orderedInsert_filter_count, ih, List.filter_cons]

/-- The sort model sorts by count, descending. -/
lemma py_sort_desc_sorted {α : Type} (l : List (α × Nat)) :
    (py_sort_desc l).Pairwise (fun a b => b.2 ≤ a.2) :=
  List.sorted_insertionSort (fun a b : α × Nat => b.2 ≤ a.2) l

/-- The sort model permutes its input. -/
lemma py_sort_desc_perm {α : Type} (l : List (α × Nat)) :
    List.Perm (py_sort_desc l) l :=
  List.perm_insertionSort (fun a b : α × Nat => b.2 ≤ a.2) l

/-- First-occurrence extraction only depends on the membership of `seen`. -/
lemma first_dedup_from_congr {α : Type} [DecidableEq α] :
    ∀ (xs s₁ s₂ : List α), (∀ a, a ∈ s₁ ↔ a ∈ s₂) →
      first_dedup_from s₁ xs = first_dedup_from s₂ xs := by
  intro xs
  induction xs with
  | nil => intro s₁ s₂ h; rfl
  | cons x xs ih =>
    intro s₁ s₂ h
    rw [first_dedup_from, first_dedup_from]
    by_cases hx : x ∈ s₁
    · rw [if_pos hx, if_pos ((h x).1 hx), ih s₁ s₂ h]
    · rw [if_neg hx, if_neg (fun hm => hx ((h x).2 hm)),
        ih (x :: s₁) (x :: s₂)
          (fun a => by rw [List.mem_cons, List.mem_cons, h a])]

/-- Keys after folding a stream of increments: the old keys followed by the
stream's first occurrences of new keys, in encounter order. -/
lemma keys_foldl_first_dedup {α : Type} [DecidableEq α] (xs : List α) :
    ∀ d : List (α × Nat),
      (xs.foldl dict_incr d).map Prod.fst
        = d.map Prod.fst ++ first_dedup_from (d.map Prod.fst) xs := by
  induction xs with
  | nil => intro d; simp [first_dedup_from]
  | cons x xs ih =>
    intro d
    rw [List.foldl_cons, ih, keys_dict_incr, first_dedup_from]
    by_cases hx : x ∈ d.map Prod.fst
    · rw [if_pos hx, if_pos hx]
    · have hiff : ∀ a, a ∈ d.map Prod.fst ++ [x] ↔ a ∈ x :: d.map Prod.fst := by
        intro a
        rw [List.mem_append, List.mem_singleton, List.mem_cons]
        exact or_comm
      rw [if_neg hx, if_neg hx, first_dedup_from_congr xs _ _ hiff]
      simp [List.append_assoc]

/-- The domain dictionary lists its keys in first-encounter order of the
records' parsed hosts. -/
lemma domain_counts_keys (results : List Record) :
    (domain_counts results).map Prod.fst
      = first_dedup (results.map (fun r => urlparse_netloc r.url)) := by
  rw [domain_counts,
    ← List.foldl_map (fun r => urlparse_netloc r.url) dict_incr results [],
    keys_foldl_first_dedup]
  simp [first_dedup]

/-- The keyword dictionary lists its keys in first-match-encounter order. -/
lemma keyword_counts_keys (results : List Record) :
    (keyword_counts results).map Prod.fst
      = first_dedup (results.flatMap matched_keywords) := by
  rw [keyword_counts, keyword_counts_eq results [], keys_foldl_first_dedup]
  simp [first_dedup]

/-- Membership in the keyword dictionary: exactly the analysis keywords
whose record count is positive, each carrying that count. -/
lemma mem_keyword_counts (results : List Record) (k : List Char) (v : Nat) :
    (k, v) ∈ keyword_counts results
      ↔ k ∈ analysis_keywords
        ∧ v = results.countP (fun r => contains_sub k (lower r.snippet))
        ∧ 0 < v := by
  have hnodup : ((keyword_counts results).map Prod.fst).Nodup := by
    rw [keyword_counts, keyword_counts_eq results []]
    exact nodup_keys_foldl _ [] (by simp)
  constructor
  · intro h
    have hk : k ∈ analysis_keywords := by
      have hkeys : k ∈ (keyword_counts results).map Prod.fst :=
        List.mem_map.2 ⟨(k, v), h, rfl⟩
      rw [keyword_counts, keyword_counts_eq results []] at hkeys
      rcases (mem_keys_foldl _ [] k).1 hkeys with h0 | hstream
      · simp at h0
      · obtain ⟨r, _, hmr⟩ := List.mem_flatMap.1 hstream
        rw [matched_keywords] at hmr
        by_cases hs : r.snippet.isEmpty = true
        · rw [if_pos hs] at hmr; cases hmr
        · rw [if_neg hs] at hmr
          exact (List.mem_filter.1 hmr).1
    have hv : dict_get (keyword_counts results) k = v :=
      dict_get_of_mem _ k v hnodup h
    have hpos : 1 ≤ v := by
      rw [keyword_counts, keyword_counts_eq results []] at h
      exact pos_foldl _ [] (by simp) (k, v) h
    exact ⟨hk, by rw [← keyword_counts_spec results k hk, hv], hpos⟩
  · rintro ⟨hk, hv, hpos⟩
    have hget : dict_get (keyword_counts results) k = v := by
      rw [keyword_counts_spec results k hk, hv]
    have hmem : k ∈ (keyword_counts results).map Prod.fst := by
      by_contra hnm
      rw [dict_get_of_not_mem _ k hnm] at hget
      omega
    obtain ⟨kv, hkv, hfst⟩ := List.mem_map.1 hmem
    obtain ⟨k', v'⟩ := kv
    cases hfst
    have hv' : dict_get (keyword_counts results) k' = v' :=
      dict_get_of_mem _ _ _ hnodup hkv
    have : v' = v := by rw [← hv', hget]
    rw [← this]
    exact hkv

/-- C9: both analysis tables come from the stable descending-count sort:
the domain table is the first 10 entries of the sorted domain dictionary
and is sorted by count descending; ties keep dictionary order (for every
count value, the kept entries keep their original relative order), and the
dictionaries themselves list keys in first-encounter order; the keyword
table is the full sorted keyword dictionary and contains exactly the
analysis keywords occurring in at least one snippet, with their true
counts. -/
theorem C9_ranked_tables (results : List Record) :
    top_domains results = (py_sort_desc (domain_counts results)).take 10
    ∧ (top_domains results).Pairwise (fun a b => b.2 ≤ a.2)
    ∧ (∀ c : Nat, (py_sort_desc (domain_counts results)).filter (fun y => y.2 == c)
        = (domain_counts results).filter (fun y => y.2 == c))
    ∧ ((domain_counts results).map Prod.fst
        = first_dedup (results.map (fun r => urlparse_netloc r.url)))
    ∧ common_keywords results = py_sort_desc (keyword_counts results)
    ∧ (common_keywords results).Pairwise (fun a b => b.2 ≤ a.2)
    ∧ (∀ c : Nat, (common_keywords results).filter (fun y => y.2 == c)
        = (keyword_counts results).filter (fun y => y.2 == c))
    ∧ ((keyword_counts results).map Prod.fst
        = first_dedup (results.flatMap matched_keywords))
    ∧ (∀ (k : List Char) (v : Nat), (k, v) ∈ common_keywords results
        ↔ k ∈ analysis_keywords
          ∧ v = results.countP (fun r => contains_sub k (lower r.snippet))
          ∧ 0 < v) := by
  refine ⟨rfl, ?_, ?_, domain_counts_keys results, rfl, ?_, ?_,
    keyword_counts_keys results, ?_⟩
  · exact List.Pairwise.sublist (List.take_sublist 10 _)
      (py_sort_desc_sorted (domain_counts results))
  · intro c
    exact py_sort_desc_filter_count c (domain_counts results)
  · exact py_sort_desc_sorted (keyword_counts results)
  · intro c
    exact py_sort_desc_filter_count c (keyword_counts results)
  · intro k v
    rw [show common_keywords results = py_sort_desc (keyword_counts results) from rfl]
    rw [(py_sort_desc_perm (keyword_counts results)).mem_iff]
    exact mem_keyword_counts results k v

end DataScraper
